import Mathlib

/-!
Verification of the KarpelesLab/jwt library against its specification.

The Go source is shallowly embedded: Go byte slices and strings become
`List Nat` (byte lists), Go maps become association lists wrapped in
`Option` (`none` models a nil map), fallible operations return
`Except Err` or `Option Err` (`none` = nil error), and the external
collaborators (JSON codec, hash functions, the native crypto provider)
are bundled in an explicit `Ext` record of functions that the theorems
quantify over.  The base64url codec (RFC 4648 section 5, unpadded) is
modelled concretely, as is the strict ASN.1 DER reader used by the
ECDSA signature codec.
-/

namespace Jwt

/-- Go `[]byte` / `string` contents: a list of byte values. -/
abbrev Bytes := List Nat

/-- Byte list of an ASCII string literal (used for Go string literals). -/
def bs (s : String) : Bytes := s.data.map Char.toNat

/-- The `.` separator byte of the compact serialization. -/
def dotByte : Nat := 46

/-- Errors of the library (`error.go` values, plus the distinct
`fmt.Errorf` messages that the code produces). -/
inductive Err
  | invalidToken
  | noSignature
  | invalidSignature
  | invalidSignKey
  | invalidSignatureLength
  | hashNotAvailable
  | noHeader
  | noPayload
  | verifyMissing
  | verifyFailed
  | invalidPublicKey
  | ecdsaParse        -- "unable to parse ECDSA signature: ..."
  | ecdsaBadLength    -- "bad data length for signature (length r=.. s=.. max=..)"
  | readSignature     -- "jwt: failed to read signature: ..."
  | jwkBadBase64      -- jwkBase64ToBigInt: bad base64 / unsupported input type
  | jwkValueTooLarge  -- "value for e is too large"
  | jwkInvalidRsaKey  -- "invalid RSA private key: ..."
  | extErr (code : Nat)  -- an error produced by an external collaborator
deriving DecidableEq, Repr

deriving instance DecidableEq for Except

/-! ## base64url (RFC 4648 section 5, raw / unpadded), as used by
`encoding/base64.RawURLEncoding` -/

/-- The base64url alphabet: index 0..63 to ASCII code. -/
def b64Char (n : Nat) : Nat :=
  if n < 26 then 65 + n               -- 'A'..'Z'
  else if n < 52 then 97 + (n - 26)   -- 'a'..'z'
  else if n < 62 then 48 + (n - 52)   -- '0'..'9'
  else if n = 62 then 45              -- '-'
  else 95                             -- '_'

/-- Inverse alphabet lookup; `none` for a byte outside the alphabet. -/
def b64Inv (c : Nat) : Option Nat :=
  if 65 ≤ c ∧ c ≤ 90 then some (c - 65)
  else if 97 ≤ c ∧ c ≤ 122 then some (c - 97 + 26)
  else if 48 ≤ c ∧ c ≤ 57 then some (c - 48 + 52)
  else if c = 45 then some 62
  else if c = 95 then some 63
  else none

/-- `base64.RawURLEncoding.EncodeToString`: unpadded base64url encoding. -/
def b64urlEncode : Bytes → Bytes
  | [] => []
  | [a] => [b64Char (a / 4), b64Char (a % 4 * 16)]
  | [a, b] => [b64Char (a / 4), b64Char (a % 4 * 16 + b / 16), b64Char (b % 16 * 4)]
  | a :: b :: c :: rest =>
      b64Char (a / 4) :: b64Char (a % 4 * 16 + b / 16) ::
      b64Char (b % 16 * 4 + c / 64) :: b64Char (c % 64) :: b64urlEncode rest

/-- `base64.RawURLEncoding.DecodeString`: rejects bytes outside the
alphabet and a final quantum of one character; it does not require the
unused trailing bits to be zero (Go's non-strict default). -/
def b64urlDecode : Bytes → Option Bytes
  | [] => some []
  | [_] => none
  | [a, b] => do
      let x ← b64Inv a; let y ← b64Inv b
      pure [x * 4 + y / 16]
  | [a, b, c] => do
      let x ← b64Inv a; let y ← b64Inv b; let z ← b64Inv c
      pure [x * 4 + y / 16, y % 16 * 16 + z / 4]
  | a :: b :: c :: d :: rest => do
      let x ← b64Inv a; let y ← b64Inv b; let z ← b64Inv c; let w ← b64Inv d
      let tail ← b64urlDecode rest
      pure ((x * 4 + y / 16) :: (y % 16 * 16 + z / 4) :: (z % 4 * 64 + w) :: tail)

/-! ## `strings.SplitN(value, ".", 3)` -/

/-- Split a byte list at the first `.`; `none` when no dot occurs. -/
def splitDot : Bytes → Option (Bytes × Bytes)
  | [] => none
  | c :: cs =>
      if c = dotByte then some ([], cs)
      else match splitDot cs with
        | none => none
        | some (a, r) => some (c :: a, r)

/-- `strings.SplitN(s, ".", 3)` on byte lists. -/
def splitN3 (s : Bytes) : List Bytes :=
  match splitDot s with
  | none => [s]
  | some (a, rest) =>
      match splitDot rest with
      | none => [a, rest]
      | some (b, rest2) => [a, b, rest2]

end Jwt

namespace Jwt

/-! ## Algorithms (`algo.go`, `hmac.go`, `rsa.go`, `rsa_pss`, `ecdsa.go`,
`ed25519.go`, `none.go`) -/

/-- The `crypto.Hash` values the library uses. -/
inductive HashId
  | sha224 | sha256 | sha384 | sha512
deriving DecidableEq, Repr

/-- The five `ecdsaAlgo` constants (`ecdsaAlgo(1)` .. `ecdsaAlgo(5)`). -/
inductive EcdsaAlg
  | es224 | es256 | es384 | es512 | es256k
deriving DecidableEq, Repr

/-- `ecdsaAlgo.Hash`. -/
def EcdsaAlg.hash : EcdsaAlg → HashId
  | .es224 => .sha224
  | .es256 => .sha256
  | .es256k => .sha256
  | .es384 => .sha384
  | .es512 => .sha512

/-- `ecdsaAlgo.digitLength`: the byte width of each of R and S. -/
def EcdsaAlg.digitLength (e : EcdsaAlg) : Nat :=
  match e.hash with
  | .sha224 => 28
  | .sha256 => 32
  | .sha384 => 48
  | .sha512 => 66

/-- `ecdsaAlgo.String`. -/
def EcdsaAlg.string : EcdsaAlg → Bytes
  | .es224 => bs "ES224"
  | .es256 => bs "ES256"
  | .es256k => bs "ES256K"
  | .es384 => bs "ES384"
  | .es512 => bs "ES512"

/-- The algorithm implementations (`hmacAlgo`, `rsaAlgo`, `rsaPssAlgo`,
`ecdsaAlgo`, `ed25519Algo`, `noneAlgo`) as a tagged union. -/
inductive Algo
  | hs (h : HashId)
  | rs (h : HashId)
  | ps (h : HashId)
  | es (e : EcdsaAlg)
  | eddsa
  | noneAlgo
deriving DecidableEq, Repr

/-- `hmacAlgo.String`. -/
def hmacName : HashId → Bytes
  | .sha224 => bs "HS224"
  | .sha256 => bs "HS256"
  | .sha384 => bs "HS384"
  | .sha512 => bs "HS512"

/-- `rsaAlgo.String`. -/
def rsaName : HashId → Bytes
  | .sha224 => bs "RS224"
  | .sha256 => bs "RS256"
  | .sha384 => bs "RS384"
  | .sha512 => bs "RS512"

/-- Modelled from the spec: the `rsaPssAlgo.String` method (the
`rsa_pss` source file is not part of the snapshot); the spec names the
RSA-PSS variants "PS256", "PS384", "PS512". -/
def rsaPssName : HashId → Bytes
  | .sha224 => bs "PS224"
  | .sha256 => bs "PS256"
  | .sha384 => bs "PS384"
  | .sha512 => bs "PS512"

/-- `Algo.String()`: the canonical algorithm name. -/
def Algo.string : Algo → Bytes
  | .hs h => hmacName h
  | .rs h => rsaName h
  | .ps h => rsaPssName h
  | .es e => e.string
  | .eddsa => bs "EdDSA"
  | .noneAlgo => bs "none"

/-- The optional `Aliases()` method (`ed25519Algo` also answers to the
uppercase stylization "EDDSA"). -/
def Algo.aliases : Algo → List Bytes
  | .eddsa => [bs "EdDSA", bs "EDDSA"]
  | _ => []

/-- The algorithms registered by the `var` block of `algo.go`, in
registration order. -/
def builtinAlgos : List Algo :=
  [.hs .sha256, .hs .sha384, .hs .sha512,
   .rs .sha256, .rs .sha384, .rs .sha512,
   .ps .sha256, .ps .sha384, .ps .sha512,
   .es .es224, .es .es256, .es .es384, .es .es512, .es .es256k,
   .eddsa, .noneAlgo]

/-- The entries `RegisterAlgo` adds for one algorithm: its name and
each alias. -/
def registerEntries (a : Algo) : List (Bytes × Algo) :=
  (a.string, a) :: a.aliases.map (fun v => (v, a))

/-- `algoMap` after the package-init registrations. -/
def algoMap : List (Bytes × Algo) :=
  (builtinAlgos.map registerEntries).flatten

/-- `parseAlgo`: name lookup in the registry; `none` for an unknown
name (the Go function returns nil). -/
def parseAlgo (v : Bytes) : Option Algo :=
  algoMap.lookup v

/-! ## Keys

`crypto.PrivateKey` / `crypto.PublicKey` are `any`-typed; the type
assertions of the algorithms are modelled by this tagged union.  The
mathematical contents of asymmetric keys stay abstract (a bare
identifier), since the arithmetic lives in the external crypto
provider. -/

inductive Key
  | hmacK (k : Bytes)     -- a []byte symmetric key
  | rsaPub (id : Nat)     -- *rsa.PublicKey
  | rsaPriv (id : Nat)    -- *rsa.PrivateKey (a crypto.Signer)
  | ecdsaPub (id : Nat)   -- *ecdsa.PublicKey
  | ecdsaPriv (id : Nat)  -- *ecdsa.PrivateKey (a crypto.Signer)
  | edPub (id : Nat)      -- ed25519.PublicKey
  | edPriv (id : Nat)     -- ed25519.PrivateKey (a crypto.Signer)
  | otherK (id : Nat)     -- any other type
deriving DecidableEq, Repr

/-- The assertion `k.(interface{ Public() crypto.PublicKey })`:
the public key of a private key, `none` when the type has no
`Public()` method. -/
def Key.publicOf : Key → Option Key
  | .rsaPriv id => some (.rsaPub id)
  | .ecdsaPriv id => some (.ecdsaPub id)
  | .edPriv id => some (.edPub id)
  | _ => none

/-- A JSON-representable claim value as stored in a `Payload`
(`map[string]any`): a decoded `json.Number` or a value stored through
`Set` (`int64`, `string`, `bool`), or Go `nil` / JSON `null`. -/
inductive Val
  | vInt (n : Int)    -- an int64 value
  | vNum (s : Bytes)  -- a json.Number (decoding uses `UseNumber()`)
  | vStr (s : Bytes)  -- a string value
  | vBool (b : Bool)
  | vNull             -- Go nil (also what `Get` returns for a missing key)
deriving DecidableEq, Repr

/-- A non-nil `Header` map (`map[string]string`) as an association
list. -/
abbrev Hmap := List (Bytes × Bytes)

/-- A non-nil `Payload` map as an association list. -/
abbrev Pmap := List (Bytes × Val)

/-- External collaborators: the JSON codec and the native crypto
provider (`crypto/hmac`, `crypto/rsa`, `crypto/ecdsa`,
`crypto/ed25519`, `crypto.Hash` registration).  All are deterministic
functions of their inputs; signing primitives take the key identifier.
`Option Err` results use `none` for a nil error. -/
structure Ext where
  jsonEncHeader : Option Hmap → Bytes
  jsonDecHeader : Bytes → Option Hmap
  jsonEncPayload : Option Pmap → Bytes
  jsonDecPayload : Bytes → Option Pmap
  hashAvailable : HashId → Bool
  hashSum : HashId → Bytes → Bytes
  hmacSum : HashId → Bytes → Bytes → Bytes
  rsaSignPrim : Nat → HashId → Bytes → Except Err Bytes
  rsaVerifyPKCS1 : Nat → HashId → Bytes → Bytes → Option Err
  rsaPssSignPrim : Nat → HashId → Bytes → Except Err Bytes
  rsaPssVerify : Nat → HashId → Bytes → Bytes → Option Err
  ecdsaSignPrim : Nat → HashId → Bytes → Except Err Bytes
  ecdsaVerifyASN1 : Nat → Bytes → Bytes → Bool
  ecdsaVerifyRS : Nat → Bytes → Nat → Nat → Bool
  edSignPrim : Nat → Bytes → Except Err Bytes
  edVerify : Nat → Bytes → Bytes → Bool
  parseInt0 : Bytes → Int   -- strconv.ParseInt(s, 0, 64), error discarded
  jsonNumInt64 : Bytes → Int -- (json.Number).Int64(), error discarded

end Jwt

namespace Jwt

/-! ## The ECDSA signature codec (`ecdsa.go` and the
`golang.org/x/crypto/cryptobyte` DER reader it delegates to) -/

/-- Big-endian unsigned integer value of a byte list
(`big.Int.SetBytes`). -/
def bytesToNat (b : Bytes) : Nat := b.foldl (fun acc x => acc * 256 + x) 0

/-- `cryptobyte.String.ReadASN1`: read one DER element with the given
tag, returning its contents and the remainder.  Rejects the high-tag
form, a non-minimal or indefinite length, and truncated input. -/
def readASN1 (tag : Nat) (s : Bytes) : Option (Bytes × Bytes) :=
  match s with
  | t :: l :: rest =>
      if t % 32 = 31 then none
      else if t ≠ tag then none
      else if l < 128 then
        if rest.length < l then none
        else some (rest.take l, rest.drop l)
      else
        let lenLen := l % 128
        if lenLen = 0 ∨ lenLen > 4 ∨ rest.length < lenLen then none
        else
          let len32 := bytesToNat (rest.take lenLen)
          if len32 < 128 then none
          else if len32 >>> ((lenLen - 1) * 8) = 0 then none
          else
            let body := rest.drop lenLen
            if body.length < len32 then none
            else some (body.take len32, body.drop len32)
  | _ => none

/-- `cryptobyte` `checkASN1Integer`: a DER INTEGER body is non-empty
and minimally encoded. -/
def checkASN1Integer : Bytes → Bool
  | [] => false
  | [_] => true
  | b0 :: b1 :: _ =>
      if b0 = 0 ∧ b1 < 128 then false
      else if b0 = 255 ∧ 128 ≤ b1 then false
      else true

/-- The `readASN1Bytes` loop stripping the sign-extension byte:
`for len(bytes) > 1 && bytes[0] == 0 { bytes = bytes[1:] }`. -/
def stripIntZeros : Bytes → Bytes
  | [] => []
  | [b] => [b]
  | 0 :: b :: rest => stripIntZeros (b :: rest)
  | b :: rest => b :: rest

/-- `cryptobyte.String.ReadASN1Integer` into a `[]byte`: reads a DER
INTEGER, rejects negative values, strips the sign-extension padding. -/
def readASN1Integer (s : Bytes) : Option (Bytes × Bytes) :=
  match readASN1 2 s with
  | none => none
  | some (body, rest) =>
      if checkASN1Integer body = false then none
      else match body with
        | [] => none
        | b0 :: _ =>
            if 128 ≤ b0 then none
            else some (stripIntZeros body, rest)

/-- `parseEcdsaSignature`: strict ASN.1 decode of
`SEQUENCE { INTEGER r, INTEGER s }`, rejecting trailing bytes both
after the SEQUENCE and inside it. -/
def parseEcdsaSignature (sig : Bytes) : Option (Bytes × Bytes) :=
  match readASN1 48 sig with
  | none => none
  | some (inner, rest) =>
      if rest ≠ [] then none
      else match readASN1Integer inner with
        | none => none
        | some (r, inner1) =>
            match readASN1Integer inner1 with
            | none => none
            | some (s, inner2) =>
                if inner2 ≠ [] then none else some (r, s)

/-- Left-pad a byte list with zeros to width `ln` (the
`copy(finalSig[ln-len(r):ln], r)` placement). -/
def padLeft (ln : Nat) (b : Bytes) : Bytes := List.replicate (ln - b.length) 0 ++ b

/-- The post-primitive part of `ecdsaAlgo.Sign` (from the
`len(buf) == ln*2` test to the end): normalize the primitive's output
to the RFC 7518 fixed-width `r‖s` form. -/
def ecdsaFinalizeSig (ln : Nat) (buf : Bytes) : Except Err Bytes :=
  if buf.length = ln * 2 then .ok buf
  else match parseEcdsaSignature buf with
    | none => .error .ecdsaParse
    | some (r, s) =>
        if ln < r.length ∨ ln < s.length then .error .ecdsaBadLength
        else .ok (padLeft ln r ++ padLeft ln s)

/-- Dynamic dispatch of `pk.Sign(rand, digest, opts)` on the signer's
concrete type. -/
def keySignPrim (E : Ext) (k : Key) (h : HashId) (d : Bytes) : Except Err Bytes :=
  match k with
  | .rsaPriv id => E.rsaSignPrim id h d
  | .ecdsaPriv id => E.ecdsaSignPrim id h d
  | .edPriv id => E.edSignPrim id d
  | _ => .error .invalidSignKey

/-- The `switch h` of `ecdsaAlgo.Sign`: ES256K skips the
public-key-type test (to admit secp256k1 keys), every other variant
requires an `*ecdsa.PublicKey`. -/
def ecdsaPubTypeOk (e : EcdsaAlg) (pub : Key) : Bool :=
  match e with
  | .es256k => true
  | _ => match pub with | .ecdsaPub _ => true | _ => false

/-- `ecdsaAlgo.Sign`: signer and curve-family type checks, hash, the
native signing primitive, then fixed-width normalization. -/
def EcdsaAlg.sign (E : Ext) (e : EcdsaAlg) (buf : Bytes) (priv : Key) : Except Err Bytes :=
  match priv.publicOf with
  | none => .error .invalidSignKey
  | some pub =>
      if ecdsaPubTypeOk e pub = false then .error .invalidSignKey
      else if E.hashAvailable e.hash = false then .error .hashNotAvailable
      else match keySignPrim E priv e.hash (E.hashSum e.hash buf) with
        | .error er => .error er
        | .ok sigBuf => ecdsaFinalizeSig e.digitLength sigBuf

/-- `ecdsaAlgo.Verify`: unwrap a `Public()`-bearing key, check hash
availability, then accept exactly-`2×digitLength` signatures via the
fixed-width path; any other length takes the deprecated-ASN.1 branch
when the flag is set, and in every case ends in
`ErrInvalidSignatureLength`. -/
def EcdsaAlg.verify (E : Ext) (flag : Bool) (e : EcdsaAlg) (buf sign : Bytes)
    (pub : Key) : Option Err :=
  let pub1 := match pub.publicOf with
    | some p => p
    | none => pub
  if E.hashAvailable e.hash = false then some .hashNotAvailable
  else
    let digest := E.hashSum e.hash buf
    let ln := e.digitLength
    match pub1 with
    | .ecdsaPub id =>
        if sign.length ≠ ln * 2 then
          if flag then
            if E.ecdsaVerifyASN1 id digest sign = false then some .invalidSignature
            else some .invalidSignatureLength
          else some .invalidSignatureLength
        else
          if E.ecdsaVerifyRS id digest (bytesToNat (sign.take ln))
              (bytesToNat (sign.drop ln)) = false
          then some .invalidSignature
          else none
    | _ => some .invalidPublicKey

/-- `Algo.Sign` dispatch.  The result models Go's `([]byte, error)`:
`.ok none` is a nil byte slice with a nil error (the "none" algorithm),
`.ok (some b)` a non-nil signature. -/
def Algo.sign (E : Ext) (a : Algo) (buf : Bytes) (priv : Key) :
    Except Err (Option Bytes) :=
  match a with
  | .hs h =>
      match priv with
      | .hmacK k =>
          if E.hashAvailable h = false then .error .hashNotAvailable
          else .ok (some (E.hmacSum h k buf))
      | _ => .error .invalidSignKey
  | .rs h =>
      match priv with
      | .rsaPriv id =>
          if E.hashAvailable h = false then .error .hashNotAvailable
          else (E.rsaSignPrim id h (E.hashSum h buf)).map some
      | .ecdsaPriv _ =>
          if E.hashAvailable h = false then .error .hashNotAvailable
          else .error .invalidSignKey
      | .edPriv _ =>
          if E.hashAvailable h = false then .error .hashNotAvailable
          else .error .invalidSignKey
      | _ => .error .invalidSignKey
  | .ps h =>
      -- Modelled from the spec: RSA-PSS has the same type-check as
      -- RSA-PKCS1v15 and signs with the PSS primitive (auto salt).
      match priv with
      | .rsaPriv id =>
          if E.hashAvailable h = false then .error .hashNotAvailable
          else (E.rsaPssSignPrim id h (E.hashSum h buf)).map some
      | .ecdsaPriv _ =>
          if E.hashAvailable h = false then .error .hashNotAvailable
          else .error .invalidSignKey
      | .edPriv _ =>
          if E.hashAvailable h = false then .error .hashNotAvailable
          else .error .invalidSignKey
      | _ => .error .invalidSignKey
  | .es e => (EcdsaAlg.sign E e buf priv).map some
  | .eddsa =>
      match priv with
      | .edPriv id => (E.edSignPrim id buf).map some
      | .rsaPriv _ => .error .invalidSignKey
      | .ecdsaPriv _ => .error .invalidSignKey
      | _ => .error .invalidSignKey
  | .noneAlgo => .ok none

/-- `Algo.Verify` dispatch (`none` = nil error = success). -/
def Algo.verify (E : Ext) (flag : Bool) (a : Algo) (buf sign : Bytes)
    (pub : Key) : Option Err :=
  match a with
  | .hs h =>
      match pub with
      | .hmacK k =>
          if E.hashAvailable h = false then some .hashNotAvailable
          else if sign = E.hmacSum h k buf then none else some .invalidSignature
      | _ => some .invalidSignature
  | .rs h =>
      match pub with
      | .rsaPub id =>
          if E.hashAvailable h = false then some .hashNotAvailable
          else E.rsaVerifyPKCS1 id h (E.hashSum h buf) sign
      | _ => some .invalidSignature
  | .ps h =>
      -- Modelled from the spec: same type-check, PSS verification.
      match pub with
      | .rsaPub id =>
          if E.hashAvailable h = false then some .hashNotAvailable
          else E.rsaPssVerify id h (E.hashSum h buf) sign
      | _ => some .invalidSignature
  | .es e => EcdsaAlg.verify E flag e buf sign pub
  | .eddsa =>
      match pub with
      | .edPub id =>
          if E.edVerify id buf sign = false then some .invalidSignature else none
      | _ => some .invalidSignature
  | .noneAlgo => some .invalidSignature

end Jwt

namespace Jwt

/-! ## Header and Payload maps (`header.go`, `payload.go`) -/

/-- Go map assignment `m[k] = v` on an association list. -/
def setKey {α : Type} (m : List (Bytes × α)) (k : Bytes) (v : α) : List (Bytes × α) :=
  match m with
  | [] => [(k, v)]
  | (k0, v0) :: rest => if k0 = k then (k, v) :: rest else (k0, v0) :: setKey rest k v

/-- `Header.Get`: empty string for a nil map or a missing key. -/
def Header.get (h : Option Hmap) (key : Bytes) : Bytes :=
  match h with
  | none => []
  | some m =>
      match m.lookup key with
      | some v => v
      | none => []

/-- `Header.Set`: `ErrNoHeader` on a nil map, otherwise the updated
map. -/
def Header.set (h : Option Hmap) (key v : Bytes) : Except Err Hmap :=
  match h with
  | none => .error .noHeader
  | some m => .ok (setKey m key v)

/-- `Header.Has`. -/
def Header.has (h : Option Hmap) (key : Bytes) : Bool :=
  match h with
  | none => false
  | some m => (m.lookup key).isSome

/-- `Payload.Get`: Go returns a nil `any` for a nil map or a missing
key, modelled by `Val.vNull`. -/
def Payload.get (p : Option Pmap) (key : Bytes) : Val :=
  match p with
  | none => .vNull
  | some m =>
      match m.lookup key with
      | some v => v
      | none => .vNull

/-- `Payload.Set`: `ErrNoPayload` on a nil map, otherwise the updated
map. -/
def Payload.set (p : Option Pmap) (key : Bytes) (v : Val) : Except Err Pmap :=
  match p with
  | none => .error .noPayload
  | some m => .ok (setKey m key v)

/-- `Payload.Has`. -/
def Payload.has (p : Option Pmap) (key : Bytes) : Bool :=
  match p with
  | none => false
  | some m => (m.lookup key).isSome

/-- `Payload.GetInt`: type-switch on the stored value; the string and
`json.Number` parses delegate to the `strconv`/`encoding/json`
collaborators. -/
def Payload.getInt (E : Ext) (p : Option Pmap) (key : Bytes) : Int :=
  match Payload.get p key with
  | .vBool true => 1
  | .vBool false => 0
  | .vStr s => E.parseInt0 s
  | .vInt n => n
  | .vNum s => E.jsonNumInt64 s
  | .vNull => 0

/-! ## `time.Time` (the fragment the library uses) -/

/-- A Go `time.Time` instant as Unix seconds plus nanoseconds. -/
structure GoTime where
  sec : Int
  nsec : Nat
deriving DecidableEq, Repr

/-- Unix seconds of Go's zero `time.Time` (January 1, year 1 UTC). -/
def unixZeroSec : Int := -62135596800

/-- `time.Unix(sec, 0)`. -/
def timeUnix (s : Int) : GoTime := ⟨s, 0⟩

/-- The zero `time.Time{}`. -/
def zeroTime : GoTime := ⟨unixZeroSec, 0⟩

/-- `t.Before(u)`. -/
def GoTime.before (t u : GoTime) : Bool :=
  decide (t.sec < u.sec ∨ (t.sec = u.sec ∧ t.nsec < u.nsec))

/-- `t.IsZero()`. -/
def GoTime.isZero (t : GoTime) : Bool :=
  decide (t.sec = unixZeroSec ∧ t.nsec = 0)

/-- `Payload.GetNumericDate`: zero time when the key is absent, else
`time.Unix(GetInt(key), 0)`. -/
def Payload.getNumericDate (E : Ext) (p : Option Pmap) (key : Bytes) : GoTime :=
  if Payload.has p key = false then zeroTime
  else timeUnix (Payload.getInt E p key)

end Jwt

namespace Jwt

/-! ## Token (`token.go`) -/

/-- The `Token` struct: algorithm choice, lazily decoded header and
payload, and the cached segments and compact string. -/
structure Token where
  algo : Option Algo
  header : Option Hmap
  payload : Option Pmap
  values : List Bytes
  value : Bytes
deriving DecidableEq, Repr

/-- `New(alg)`: header `{alg: alg.String()}`, empty payload. -/
def Token.new (a : Algo) : Token :=
  { algo := some a
    header := some [(bs "alg", a.string)]
    payload := some []
    values := []
    value := [] }

/-- `ParseString`: split on `.` into at most 3 segments; fewer than 2
is `ErrInvalidToken`; nothing is decoded yet. -/
def ParseString (s : Bytes) : Except Err Token :=
  let split := splitN3 s
  if split.length < 2 then .error .invalidToken
  else .ok { algo := none, header := none, payload := none, values := split, value := s }

/-- `Token.Header()`: decode-on-first-access with caching; a base64 or
JSON failure returns a nil map and caches nothing.  The returned map
and the possibly updated token are both produced (the Go method
mutates the receiver). -/
def Token.headerFn (E : Ext) (t : Token) : Option Hmap × Token :=
  match t.header with
  | some m => (some m, t)
  | none =>
      match b64urlDecode (t.values.getD 0 []) with
      | none => (none, t)
      | some str =>
          match E.jsonDecHeader str with
          | none => (none, t)
          | some m => (some m, { t with header := some m })

/-- `Token.Payload()`: like `Header()` for the second segment, using
the `UseNumber()` JSON decoder. -/
def Token.payloadFn (E : Ext) (t : Token) : Option Pmap × Token :=
  match t.payload with
  | some m => (some m, t)
  | none =>
      match b64urlDecode (t.values.getD 1 []) with
      | none => (none, t)
      | some str =>
          match E.jsonDecPayload str with
          | none => (none, t)
          | some m => (some m, { t with payload := some m })

/-- `Header.GetAlgo`: `parseAlgo(h.Get("alg"))`. -/
def headerGetAlgo (h : Option Hmap) : Option Algo :=
  parseAlgo (Header.get h (bs "alg"))

/-- `Token.GetAlgo`: the constructed algorithm if set, else resolution
from the (lazily decoded) header. -/
def Token.getAlgoFn (E : Ext) (t : Token) : Option Algo × Token :=
  match t.algo with
  | some a => (some a, t)
  | none =>
      let p := t.headerFn E
      (headerGetAlgo p.1, p.2)

/-- `Token.getSignString`: the first
`len(values[0]) + len(values[1]) + 1` bytes of the compact string. -/
def Token.getSignString (t : Token) : Bytes :=
  t.value.take ((t.values.getD 0 []).length + (t.values.getD 1 []).length + 1)

/-- Modelled from the spec: `Token.GetRawSignature` (called by
`VerifySignature` but not part of the snapshot) "recovers the raw
signature bytes from the last segment"; a token without a third
segment has no signature (`ErrNoSignature`). -/
def Token.getRawSignature (t : Token) : Except Err Bytes :=
  if t.values.length < 3 then .error .noSignature
  else match b64urlDecode (t.values.getD 2 []) with
    | none => .error .readSignature
    | some s => .ok s

/-- The second segment `Token.Sign` emits: a never-decoded payload
segment is reused verbatim (it may not be JSON), an absent one becomes
the encoded empty JSON object, and a decoded payload is re-marshalled
and encoded. -/
def Token.signV1 (E : Ext) (t2 : Token) : Bytes :=
  match t2.payload with
  | none =>
      if t2.values.length < 2 then b64urlEncode (bs "\x7b\x7d")
      else t2.values.getD 1 []
  | some p => b64urlEncode (E.jsonEncPayload (some p))

/-- `Token.Sign`: resolve the algorithm, build both segments, sign
`values[0] + "." + values[1]`, and append the signature segment only
for a non-nil signature.  Returns Go's `(string, error)` plus the
mutated token. -/
def Token.sign (E : Ext) (t : Token) (priv : Key) : Except Err Bytes × Token :=
  let a0 := t.getAlgoFn E
  match a0.1 with
  | none => (.error .invalidToken, a0.2)
  | some algo =>
      let h1 := a0.2.headerFn E
      let t2 := h1.2
      let v0 := b64urlEncode (E.jsonEncHeader h1.1)
      let v1 := Token.signV1 E t2
      let buf := v0 ++ dotByte :: v1
      match Algo.sign E algo buf priv with
      | .error er => (.error er, t2)
      | .ok none => (.ok buf, { t2 with values := [v0, v1], value := buf })
      | .ok (some sb) =>
          let v2 := b64urlEncode sb
          let out := buf ++ dotByte :: v2
          (.ok out, { t2 with values := [v0, v1, v2], value := out })

/-! ## The verification pipeline (`verify.go`) -/

/-- The library's `VerifyOption` constructors. -/
inductive VOpt
  | algoList (l : List Algo)         -- VerifyAlgo(algo...)
  | signatureOf (pub : Key)          -- VerifySignature(pub)
  | expiresAt (now : GoTime) (req : Bool)  -- VerifyExpiresAt(now, req)
  | notBefore (now : GoTime) (req : Bool)  -- VerifyNotBefore(now, req)
  | multiple (l : List VOpt)         -- VerifyMultiple(opts...)

/-- `VerifyAlgo(algo...)` applied to a token: resolve the token's
algorithm and compare names by string equality. -/
def runVerifyAlgo (E : Ext) (algos : List Algo) (t : Token) : Option Err × Token :=
  let a0 := t.getAlgoFn E
  match a0.1 with
  | none => (some .invalidToken, a0.2)
  | some ta =>
      if algos.any (fun a => decide (a.string = ta.string)) then (none, a0.2)
      else (some .verifyFailed, a0.2)

/-- `VerifySignature(pub)` applied to a token: read the raw signature,
resolve the algorithm, delegate to its `Verify` on the sign string. -/
def runVerifySignature (E : Ext) (flag : Bool) (pub : Key) (t : Token) :
    Option Err × Token :=
  match t.getRawSignature with
  | .error _ => (some .readSignature, t)
  | .ok sign =>
      let a0 := t.getAlgoFn E
      match a0.1 with
      | none => (some .invalidToken, a0.2)
      | some a => (Algo.verify E flag a a0.2.getSignString sign pub, a0.2)

/-- `VerifyExpiresAt(now, req)` applied to a token. -/
def runVerifyExpiresAt (E : Ext) (now : GoTime) (req : Bool) (t : Token) :
    Option Err × Token :=
  let p1 := t.payloadFn E
  if Payload.has p1.1 (bs "exp") = false then
    (if req then some .verifyMissing else none, p1.2)
  else
    let p2 := p1.2.payloadFn E
    let exp := Payload.getNumericDate E p2.1 (bs "exp")
    if exp.isZero then (some .verifyFailed, p2.2)
    else if exp.before now then (some .verifyFailed, p2.2)
    else (none, p2.2)

/-- `VerifyNotBefore(now, req)` applied to a token. -/
def runVerifyNotBefore (E : Ext) (now : GoTime) (req : Bool) (t : Token) :
    Option Err × Token :=
  let p1 := t.payloadFn E
  if Payload.has p1.1 (bs "nbf") = false then
    (if req then some .verifyMissing else none, p1.2)
  else
    let p2 := p1.2.payloadFn E
    let nbf := Payload.getNumericDate E p2.1 (bs "nbf")
    if nbf.isZero then (some .verifyFailed, p2.2)
    else if now.before nbf then (some .verifyFailed, p2.2)
    else (none, p2.2)

mutual

/-- Apply one verification option to a token. -/
def runOpt (E : Ext) (flag : Bool) (o : VOpt) (t : Token) : Option Err × Token :=
  match o with
  | .algoList l => runVerifyAlgo E l t
  | .signatureOf pub => runVerifySignature E flag pub t
  | .expiresAt now req => runVerifyExpiresAt E now req t
  | .notBefore now req => runVerifyNotBefore E now req t
  | .multiple l => runOpts E flag l t

/-- Apply options in order, stopping at the first failure
(`VerifyMultiple` and the loop of `Token.Verify`). -/
def runOpts (E : Ext) (flag : Bool) (l : List VOpt) (t : Token) : Option Err × Token :=
  match l with
  | [] => (none, t)
  | o :: rest =>
      match runOpt E flag o t with
      | (some e, t1) => (some e, t1)
      | (none, t1) => runOpts E flag rest t1

end

/-- `Token.Verify(opts...)`: require a decodable header and payload,
then run the options in order, stopping at the first failure. -/
def Token.verify (E : Ext) (flag : Bool) (t : Token) (opts : List VOpt) :
    Option Err × Token :=
  let h1 := t.headerFn E
  match h1.1 with
  | none => (some .noHeader, h1.2)
  | some _ =>
      let p1 := h1.2.payloadFn E
      match p1.1 with
      | none => (some .noPayload, p1.2)
      | some _ => runOpts E flag opts p1.2

end Jwt

namespace Jwt

/-! ## JWK parsing, RSA branch (`jwk.go`) -/

/-- A JSON value in the decoded `map[string]any` handed to
`JWK.ApplyValues`: a string, or any other JSON value type (which
`jwkBase64ToBigInt` rejects). -/
inductive JVal
  | jstr (s : Bytes)
  | jother (id : Nat)
deriving DecidableEq, Repr

/-- `jwkBase64ToBigInt`: accept a string (or byte slice, identical
here), reject other types and Go `nil` (an absent key), base64url
decode, big-endian `big.Int.SetBytes`. -/
def jwkBase64ToBigInt : Option JVal → Except Err Nat
  | some (.jstr s) =>
      match b64urlDecode s with
      | some bin => .ok (bytesToNat bin)
      | none => .error .jwkBadBase64
  | some (.jother _) => .error .jwkBadBase64
  | none => .error .jwkBadBase64

/-- Go's `int(e)` on a 64-bit platform applied to a `uint64` below
`2^64`: two's-complement reinterpretation. -/
def toInt64 (u : Nat) : Int :=
  if u < 2 ^ 63 then (u : Int) else (u : Int) - 2 ^ 64

/-- The `rsa.PrivateKey` value that `ApplyValues` constructs: modulus,
public exponent, private exponent — and the `Primes` field it leaves
empty. -/
structure RsaPrivateKey where
  modN : Nat
  expE : Int
  expD : Nat
  primes : List Nat
deriving DecidableEq, Repr

/-- Modelled from the Go standard library collaborator `crypto/rsa`:
`checkPub` requires `2 ≤ E ≤ 2^31 - 1` (the modulus is always non-nil
here). -/
def rsaCheckPub (_n : Nat) (e : Int) : Bool :=
  decide (2 ≤ e ∧ e ≤ 2 ^ 31 - 1)

/-- Modelled from the Go standard library collaborator `crypto/rsa`:
`(*PrivateKey).Validate()` — the public-key sanity check, each
recorded prime must exceed one, the product of the recorded primes
must equal the modulus, and `d·e ≡ 1 (mod p-1)` for each recorded
prime. -/
def rsaValidate (k : RsaPrivateKey) : Bool :=
  rsaCheckPub k.modN k.expE &&
  k.primes.all (fun p => decide (1 < p)) &&
  decide (k.primes.foldl (fun a p => a * p) 1 = k.modN) &&
  k.primes.all (fun p => decide ((k.expE * (k.expD : Int)) % ((p : Int) - 1) = 1))

/-- The outcome of the RSA branch: a private key (public key derived
from it) or a bare public key. -/
inductive RsaKeyResult
  | privateKey (k : RsaPrivateKey)
  | publicKey (n : Nat) (e : Int)
deriving DecidableEq, Repr

/-- The `case "RSA"` arm of `JWK.ApplyValues`: read `e` (must fit a
uint64), `n`, and optionally `d`; with `d` present construct the
private key with an empty `Primes` list and accept it only if the
collaborator's `Validate()` passes. -/
def jwkApplyValuesRSA (eV nV dV : Option JVal) : Except Err RsaKeyResult :=
  match jwkBase64ToBigInt eV with
  | .error er => .error er
  | .ok eB =>
      if eB < 2 ^ 64 then
        match jwkBase64ToBigInt nV with
        | .error er => .error er
        | .ok nB =>
            match dV with
            | some dval =>
                match jwkBase64ToBigInt (some dval) with
                | .error er => .error er
                | .ok dB =>
                    let res : RsaPrivateKey := ⟨nB, toInt64 eB, dB, []⟩
                    if rsaValidate res then .ok (.privateKey res)
                    else .error .jwkInvalidRsaKey
            | none => .ok (.publicKey nB (toInt64 eB))
      else .error .jwkValueTooLarge

end Jwt

namespace Jwt

/-! ## A concrete external-collaborator instantiation, used to
evaluate the development on closed inputs -/

/-- A trivial, fully computable `Ext`. -/
def extTriv : Ext :=
  { jsonEncHeader := fun _ => []
    jsonDecHeader := fun _ => none
    jsonEncPayload := fun _ => []
    jsonDecPayload := fun _ => none
    hashAvailable := fun _ => true
    hashSum := fun _ _ => []
    hmacSum := fun _ _ _ => []
    rsaSignPrim := fun _ _ _ => .ok []
    rsaVerifyPKCS1 := fun _ _ _ _ => none
    rsaPssSignPrim := fun _ _ _ => .ok []
    rsaPssVerify := fun _ _ _ _ => none
    ecdsaSignPrim := fun _ _ _ => .ok []
    ecdsaVerifyASN1 := fun _ _ _ => true
    ecdsaVerifyRS := fun _ _ _ _ => true
    edSignPrim := fun _ _ => .ok []
    edVerify := fun _ _ _ => true
    parseInt0 := fun _ => 0
    jsonNumInt64 := fun _ => 0 }

/-! ## Claim theorems -/

/-- C2: for the "none" algorithm, `Sign` always succeeds with a nil
(empty) signature for every message and private key, and `Verify`
always returns `ErrInvalidSignature` for every message, signature and
public key, so a "none"-algorithm token can never pass signature
verification. -/
theorem none_algo_sign_empty_verify_always_fails (E : Ext) (flag : Bool)
    (buf sign : Bytes) (priv pub : Key) :
    Algo.sign E .noneAlgo buf priv = .ok none ∧
    Algo.verify E flag .noneAlgo buf sign pub = some .invalidSignature :=
  ⟨rfl, rfl⟩

/-- C10: `Get`, `Set` and `Has` on a nil `Header` or nil `Payload`
never panic (they are total here by construction): `Get` returns the
zero value (empty string / Go nil), `Has` returns `false`, and `Set`
returns `ErrNoHeader` / `ErrNoPayload` without touching any state. -/
theorem nil_header_payload_accessors_safe (k v : Bytes) (w : Val) :
    Header.get none k = [] ∧
    Header.has none k = false ∧
    Header.set none k v = .error .noHeader ∧
    Payload.get none k = .vNull ∧
    Payload.has none k = false ∧
    Payload.set none k w = .error .noPayload :=
  ⟨rfl, rfl, rfl, rfl, rfl, rfl⟩

/-- The first component of `runVerifyAlgo` as a case tree over the
resolved algorithm. -/
theorem runVerifyAlgo_fst (E : Ext) (algos : List Algo) (t : Token) :
    (runVerifyAlgo E algos t).1 =
      match (t.getAlgoFn E).1 with
      | none => some .invalidToken
      | some ta =>
          if algos.any (fun a => decide (a.string = ta.string)) then none
          else some .verifyFailed := by
  unfold runVerifyAlgo
  cases hA : (t.getAlgoFn E).1 with
  | none => simp [hA]
  | some ta =>
      by_cases h : algos.any (fun a => decide (a.string = ta.string)) <;> simp [hA, h]

/-- C3: the `VerifyAlgo` check succeeds exactly when the token's
resolved algorithm name string-equals the name of some algorithm of
the caller's list; a token whose algorithm does not resolve is always
rejected, and an empty list rejects every token. -/
theorem verifyAlgo_allowlist (E : Ext) (algos : List Algo) (t : Token) :
    ((runVerifyAlgo E algos t).1 = none ↔
      ∃ ta, (t.getAlgoFn E).1 = some ta ∧ ∃ a ∈ algos, a.string = ta.string) ∧
    ((t.getAlgoFn E).1 = none → (runVerifyAlgo E algos t).1 = some .invalidToken) ∧
    (algos = [] → (runVerifyAlgo E algos t).1 ≠ none) := by
  rw [runVerifyAlgo_fst]
  cases hA : (t.getAlgoFn E).1 with
  | none => simp
  | some ta =>
      by_cases h : algos.any (fun a => decide (a.string = ta.string))
      · have hex : ∃ a ∈ algos, a.string = ta.string := by
          simpa using h
        refine ⟨?_, ?_, ?_⟩
        · simp [h, hex]
        · simp
        · rintro rfl
          simp at hex
      · have hnex : ¬ ∃ a ∈ algos, a.string = ta.string := by
          simpa using h
        refine ⟨?_, ?_, ?_⟩
        · simp [h, hnex]
        · simp
        · simp [h]

/-- C3 witness: on a token whose header resolved to HS256, the check
passes for the list `[HS256]`, and fails for the empty list. -/
theorem verifyAlgo_allowlist_witness :
    (runVerifyAlgo extTriv [.hs .sha256] (Token.new (.hs .sha256))).1 = none ∧
    (runVerifyAlgo extTriv [] (Token.new (.hs .sha256))).1 ≠ none := by
  constructor
  · exact (verifyAlgo_allowlist extTriv [.hs .sha256] (Token.new (.hs .sha256))).1.mpr
      ⟨.hs .sha256, by decide, .hs .sha256, by decide, rfl⟩
  · exact (verifyAlgo_allowlist extTriv [] (Token.new (.hs .sha256))).2.2 rfl

end Jwt

namespace Jwt

/-- `Token.Payload()` is idempotent as a state transformer. -/
theorem payloadFn_idem (E : Ext) (t : Token) :
    (t.payloadFn E).2.payloadFn E = t.payloadFn E := by
  cases hp : t.payload with
  | some m => simp [Token.payloadFn, hp]
  | none =>
      cases hb : b64urlDecode ((t.values[1]?).getD []) with
      | none => simp [Token.payloadFn, hp, hb]
      | some str =>
          cases hj : E.jsonDecPayload str with
          | none => simp [Token.payloadFn, hp, hb, hj]
          | some m => simp [Token.payloadFn, hp, hb, hj]

/-- The first component of `runVerifyExpiresAt` as a decision tree
over the decoded payload. -/
theorem runVerifyExpiresAt_fst (E : Ext) (now : GoTime) (req : Bool) (t : Token) :
    (runVerifyExpiresAt E now req t).1 =
      if Payload.has (t.payloadFn E).1 (bs "exp") = false then
        (if req then some .verifyMissing else none)
      else
        let exp := Payload.getNumericDate E (t.payloadFn E).1 (bs "exp")
        if exp.isZero then some .verifyFailed
        else if exp.before now then some .verifyFailed
        else none := by
  unfold runVerifyExpiresAt
  simp only [payloadFn_idem]
  by_cases hHas : Payload.has (t.payloadFn E).1 (bs "exp") = false
  · simp [hHas]
  · by_cases hz : (Payload.getNumericDate E (t.payloadFn E).1 (bs "exp")).isZero = true
    · simp [hHas, hz]
    · by_cases hbf :
          (Payload.getNumericDate E (t.payloadFn E).1 (bs "exp")).before now = true <;>
        simp [hHas, hz, hbf]

/-- C6 (amended): `VerifyExpiresAt(now, req)` succeeds on a payload
without `exp` unless `req` is set (then `ErrVerifyMissing`); with
`exp` present it succeeds exactly when the parsed Unix timestamp is
not before `now` AND is not the integer -62135596800 (the Unix seconds
of Go's zero `time.Time`, which the code conflates with a parse
failure and rejects even when it is not before `now`). -/
theorem verifyExpiresAt_spec (E : Ext) (now : GoTime) (req : Bool) (t : Token) :
    (Payload.has (t.payloadFn E).1 (bs "exp") = false →
       (runVerifyExpiresAt E now req t).1 =
         if req then some .verifyMissing else none) ∧
    (Payload.has (t.payloadFn E).1 (bs "exp") = true →
       ((runVerifyExpiresAt E now req t).1 = none ↔
         (Payload.getInt E (t.payloadFn E).1 (bs "exp") ≠ unixZeroSec ∧
          (timeUnix (Payload.getInt E (t.payloadFn E).1 (bs "exp"))).before now
            = false))) := by
  have hfst := runVerifyExpiresAt_fst E now req t
  constructor
  · intro hHas
    rw [hfst]; simp [hHas]
  · intro hHas
    rw [hfst]
    simp only [hHas, Bool.true_eq_false, if_false]
    have hdate : Payload.getNumericDate E (t.payloadFn E).1 (bs "exp") =
        timeUnix (Payload.getInt E (t.payloadFn E).1 (bs "exp")) := by
      unfold Payload.getNumericDate
      simp [hHas]
    rw [hdate]
    set n := Payload.getInt E (t.payloadFn E).1 (bs "exp") with hn
    by_cases hz : n = unixZeroSec
    · simp [timeUnix, GoTime.isZero, hz]
    · have hzB : (timeUnix n).isZero = false := by
        simp [timeUnix, GoTime.isZero, hz]
      rw [hzB]
      by_cases hb : (timeUnix n).before now = true
      · simp [hb, hz]
      · have hbF : (timeUnix n).before now = false := by
          revert hb; cases (timeUnix n).before now <;> simp
        simp [hbF, hz]

/-- A token whose payload holds only an integer `exp` claim. -/
def tokExp (n : Int) : Token :=
  { algo := none, header := some [], payload := some [(bs "exp", .vInt n)],
    values := [], value := [] }

/-- A token whose payload is an empty (but decoded) claim set. -/
def tokNoExp : Token :=
  { algo := none, header := some [], payload := some [], values := [], value := [] }

/-- C6 witness: at `now = 1700000000`, `exp = now-1` fails,
`exp = now+1` passes, and a payload lacking `exp` passes when not
required and fails with the missing-claim error when required. -/
theorem verifyExpiresAt_spec_witness :
    (runVerifyExpiresAt extTriv ⟨1700000000, 0⟩ false (tokExp 1699999999)).1 ≠ none ∧
    (runVerifyExpiresAt extTriv ⟨1700000000, 0⟩ false (tokExp 1700000001)).1 = none ∧
    (runVerifyExpiresAt extTriv ⟨1700000000, 0⟩ false tokNoExp).1 = none ∧
    (runVerifyExpiresAt extTriv ⟨1700000000, 0⟩ true tokNoExp).1 = some .verifyMissing := by
  refine ⟨?_, ?_, ?_, ?_⟩
  · intro h
    have := ((verifyExpiresAt_spec extTriv ⟨1700000000, 0⟩ false
        (tokExp 1699999999)).2 (by decide)).mp h
    exact absurd this.2 (by decide)
  · exact ((verifyExpiresAt_spec extTriv ⟨1700000000, 0⟩ false
        (tokExp 1700000001)).2 (by decide)).mpr ⟨by decide, by decide⟩
  · simpa using (verifyExpiresAt_spec extTriv ⟨1700000000, 0⟩ false tokNoExp).1 (by decide)
  · simpa using (verifyExpiresAt_spec extTriv ⟨1700000000, 0⟩ true tokNoExp).1 (by decide)

/-- C6 counterexample: with `exp` stored as the integer -62135596800,
whose `time.Unix` value is NOT before `now = -62135596801`, the claim
says the check passes, but the code reports `ErrVerifyFailed` (the
value collides with Go's zero time, which the code treats as a parse
failure). -/
theorem verifyExpiresAt_zero_time_cex :
    (timeUnix (Payload.getInt extTriv
        ((tokExp (-62135596800)).payloadFn extTriv).1 (bs "exp"))).before
        ⟨-62135596801, 0⟩ = false ∧
    (runVerifyExpiresAt extTriv ⟨-62135596801, 0⟩ false
        (tokExp (-62135596800))).1 = some .verifyFailed := by
  exact ⟨by decide, by decide⟩

end Jwt

namespace Jwt

/-- C1: (code bug) with the legacy flag enabled and a signature whose
length differs from 2×digitLength, `ecdsaAlgo.Verify` runs the ASN.1
verification but then falls through to `return ErrInvalidSignatureLength`
even when that verification succeeds: for every ECDSA variant it never
returns success on such a signature, so the deprecated ASN.1 form is
never actually accepted. -/
theorem ecdsa_asn1_fallback_never_succeeds (E : Ext) (e : EcdsaAlg) (id : Nat)
    (buf sign : Bytes)
    (hAvail : E.hashAvailable e.hash = true)
    (hLen : sign.length ≠ e.digitLength * 2)
    (hAsn1 : E.ecdsaVerifyASN1 id (E.hashSum e.hash buf) sign = true) :
    Algo.verify E true (.es e) buf sign (.ecdsaPub id)
      = some .invalidSignatureLength := by
  simp [Algo.verify, EcdsaAlg.verify, Key.publicOf, hAvail, hLen, hAsn1]

/-- C1 witness: ES256, the legacy flag on, an 8-byte DER signature the
provider's ASN.1 verification accepts — `Verify` still reports the
length error. -/
theorem ecdsa_asn1_fallback_never_succeeds_witness :
    Algo.verify extTriv true (.es .es256) (bs "m") [48, 6, 2, 1, 2, 2, 1, 3]
      (.ecdsaPub 0) = some .invalidSignatureLength :=
  ecdsa_asn1_fallback_never_succeeds extTriv .es256 0 (bs "m")
    [48, 6, 2, 1, 2, 2, 1, 3] (by decide) (by decide) (by decide)

/-- C7: (code bug) the RSA arm of `JWK.ApplyValues` builds the private
key with an empty `Primes` list, and the collaborator's `Validate()`
demands that the recorded primes multiply to the modulus; hence every
private RSA JWK whose modulus exceeds one — mathematically consistent
or not — is rejected with the invalid-key error. -/
theorem jwk_rsa_private_always_rejected (eV nV : Option JVal) (dV : JVal)
    (eB nB dB : Nat)
    (hE : jwkBase64ToBigInt eV = .ok eB) (hEfit : eB < 2 ^ 64)
    (hN : jwkBase64ToBigInt nV = .ok nB) (hN2 : 2 ≤ nB)
    (hD : jwkBase64ToBigInt (some dV) = .ok dB) :
    jwkApplyValuesRSA eV nV (some dV) = .error .jwkInvalidRsaKey := by
  have h1 : (1 : Nat) ≠ nB := by omega
  have hval : rsaValidate ⟨nB, toInt64 eB, dB, []⟩ = false := by
    simp [rsaValidate, h1]
  simp [jwkApplyValuesRSA, hE, hEfit, hN, hD, hval]
  omega

/-- C7 witness: the JWK `{kty: RSA, n: "Dw", e: "Aw", d: "Aw"}` is the
consistent triple n=15, e=3, d=3 (e·d = 9 and m^9 ≡ m (mod 15) for
every m, RSA's correctness relation), yet parsing rejects it. -/
theorem jwk_rsa_private_always_rejected_witness :
    (∀ m < 15, m ^ 9 % 15 = m % 15) ∧
    jwkApplyValuesRSA (some (.jstr (bs "Aw"))) (some (.jstr (bs "Dw")))
      (some (.jstr (bs "Aw"))) = .error .jwkInvalidRsaKey := by
  constructor
  · decide
  · exact jwk_rsa_private_always_rejected (some (.jstr (bs "Aw")))
      (some (.jstr (bs "Dw"))) (.jstr (bs "Aw")) 3 15 3
      (by rfl) (by decide) (by rfl) (by decide) (by rfl)

end Jwt

namespace Jwt

/-- Padding to `digitLength` is exact when the value fits. -/
theorem padLeft_length (ln : Nat) (b : Bytes) (h : b.length ≤ ln) :
    (padLeft ln b).length = ln := by
  simp [padLeft]
  omega

/-- A buffer that does not open with the SEQUENCE tag is rejected by
the strict ASN.1 parse. -/
theorem parseEcdsa_nonseq (b : Nat) (rest : Bytes) (hb : b ≠ 48) :
    parseEcdsaSignature (b :: rest) = none := by
  have h48 : readASN1 48 (b :: rest) = none := by
    unfold readASN1
    cases rest with
    | nil => rfl
    | cons c cs =>
        by_cases h31 : b % 32 = 31
        · simp [h31]
        · simp [h31, hb]
  simp [parseEcdsaSignature, h48]

/-- C4: for every ECDSA variant, the `Sign` normalization returns
exactly `2×digitLength` bytes on success; a primitive buffer already
of that length passes through unchanged; otherwise the buffer is
strictly ASN.1-decoded (rejecting a non-SEQUENCE head, trailing bytes
after the SEQUENCE, and a missing second integer), each integer is
left-zero-padded to `digitLength` and the two are concatenated, and an
integer longer than `digitLength` is a length error. -/
theorem ecdsa_sign_fixed_width (e : EcdsaAlg) (buf : Bytes) :
    (∀ out, ecdsaFinalizeSig e.digitLength buf = .ok out →
       out.length = e.digitLength * 2) ∧
    (buf.length = e.digitLength * 2 → ecdsaFinalizeSig e.digitLength buf = .ok buf) ∧
    (buf.length ≠ e.digitLength * 2 →
       ((parseEcdsaSignature buf = none →
           ecdsaFinalizeSig e.digitLength buf = .error .ecdsaParse) ∧
        (∀ r s, parseEcdsaSignature buf = some (r, s) →
           (r.length ≤ e.digitLength ∧ s.length ≤ e.digitLength →
              ecdsaFinalizeSig e.digitLength buf
                = .ok (padLeft e.digitLength r ++ padLeft e.digitLength s)) ∧
           (e.digitLength < r.length ∨ e.digitLength < s.length →
              ecdsaFinalizeSig e.digitLength buf = .error .ecdsaBadLength)))) ∧
    (∀ b r2, b ≠ 48 → parseEcdsaSignature (b :: r2) = none) ∧
    (∀ inner rest, readASN1 48 buf = some (inner, rest) → rest ≠ [] →
       parseEcdsaSignature buf = none) ∧
    (∀ inner r rest1, readASN1 48 buf = some (inner, []) →
       readASN1Integer inner = some (r, rest1) → readASN1Integer rest1 = none →
       parseEcdsaSignature buf = none) := by
  refine ⟨?_, ?_, ?_, ?_, ?_, ?_⟩
  · intro out h
    by_cases hL : buf.length = e.digitLength * 2
    · simp [ecdsaFinalizeSig, hL] at h
      subst h
      exact hL
    · cases hp : parseEcdsaSignature buf with
      | none => simp [ecdsaFinalizeSig, hL, hp] at h
      | some rs =>
          obtain ⟨r, s⟩ := rs
          by_cases hlt : e.digitLength < r.length ∨ e.digitLength < s.length
          · simp [ecdsaFinalizeSig, hL, hp, hlt] at h
          · simp [ecdsaFinalizeSig, hL, hp, hlt] at h
            push_neg at hlt
            subst h
            rw [List.length_append, padLeft_length _ _ hlt.1, padLeft_length _ _ hlt.2]
            omega
  · intro h
    simp [ecdsaFinalizeSig, h]
  · intro hL
    constructor
    · intro hp
      simp [ecdsaFinalizeSig, hL, hp]
    · intro r s hp
      constructor
      · intro hle
        have hlt : ¬(e.digitLength < r.length ∨ e.digitLength < s.length) := by omega
        simp [ecdsaFinalizeSig, hL, hp, hlt]
      · intro hlt
        simp [ecdsaFinalizeSig, hL, hp, hlt]
  · intro b r2 hb
    exact parseEcdsa_nonseq b r2 hb
  · intro inner rest h hne
    simp [parseEcdsaSignature, h, hne]
  · intro inner r rest1 h hr hnone
    simp [parseEcdsaSignature, h, hr, hnone]

/-- C4 witness: for ES256, a 64-byte buffer passes through unchanged,
and the DER `SEQUENCE{INTEGER 2, INTEGER 3}` is normalized to the
64-byte zero-padded concatenation. -/
theorem ecdsa_sign_fixed_width_witness :
    ecdsaFinalizeSig EcdsaAlg.es256.digitLength (List.replicate 64 7)
      = .ok (List.replicate 64 7) ∧
    ecdsaFinalizeSig EcdsaAlg.es256.digitLength [48, 6, 2, 1, 2, 2, 1, 3]
      = .ok (padLeft EcdsaAlg.es256.digitLength [2] ++
             padLeft EcdsaAlg.es256.digitLength [3]) := by
  constructor
  · exact (ecdsa_sign_fixed_width .es256 (List.replicate 64 7)).2.1 (by decide)
  · exact (((ecdsa_sign_fixed_width .es256 [48, 6, 2, 1, 2, 2, 1, 3]).2.2.1
      (by decide)).2 [2] [3] (by decide)).1 (by decide)

end Jwt

namespace Jwt

/-- A successful `splitDot` decomposes the input at its first dot. -/
theorem splitDot_eq (s : Bytes) :
    ∀ a r, splitDot s = some (a, r) → s = a ++ dotByte :: r ∧ dotByte ∉ a := by
  induction s with
  | nil => intro a r h; simp [splitDot] at h
  | cons c cs ih =>
      intro a r h
      by_cases hc : c = dotByte
      · simp [splitDot, hc] at h
        obtain ⟨ha, hr⟩ := h
        subst ha; subst hr
        simp [hc]
      · simp only [splitDot, if_neg hc] at h
        cases hs : splitDot cs with
        | none => rw [hs] at h; simp at h
        | some p =>
            obtain ⟨a', r'⟩ := p
            rw [hs] at h
            simp at h
            obtain ⟨ha, hr⟩ := h
            obtain ⟨hcs, hnot⟩ := ih a' r' hs
            subst ha; subst hr
            constructor
            · simp [hcs]
            · simp [hnot]
              omega
  -- the final `omega` discharges `c ≠ dotByte` as a Nat disequality


/-- `getSignString` of a token whose compact string is two
dot-separated segments. -/
theorem getSignString_two (al : Option Algo) (hd : Option Hmap) (pl : Option Pmap)
    (v0 v1 s : Bytes) (hs : s = v0 ++ dotByte :: v1) :
    Token.getSignString ⟨al, hd, pl, [v0, v1], s⟩ = v0 ++ dotByte :: v1 := by
  have h0 : ([v0, v1] : List Bytes).getD 0 [] = v0 := rfl
  have h1 : ([v0, v1] : List Bytes).getD 1 [] = v1 := rfl
  simp only [Token.getSignString, h0, h1]
  rw [hs, List.take_of_length_le
    (by simp only [List.length_append, List.length_cons]; omega)]

/-- `getSignString` of a token whose compact string is three
dot-separated segments: exactly the first two and the dot between
them. -/
theorem getSignString_three (al : Option Algo) (hd : Option Hmap) (pl : Option Pmap)
    (v0 v1 v2 s : Bytes) (hs : s = (v0 ++ dotByte :: v1) ++ dotByte :: v2) :
    Token.getSignString ⟨al, hd, pl, [v0, v1, v2], s⟩ = v0 ++ dotByte :: v1 := by
  have h0 : ([v0, v1, v2] : List Bytes).getD 0 [] = v0 := rfl
  have h1 : ([v0, v1, v2] : List Bytes).getD 1 [] = v1 := rfl
  simp only [Token.getSignString, h0, h1]
  rw [hs, List.take_left'
    (by simp only [List.length_append, List.length_cons]; omega)]

/-- C5: the bytes fed to the algorithms are exactly
`base64url(header) + "." + base64url(payload)`.  Parse side: the
`getSignString` that `VerifySignature` hands to `Algo.Verify` is the
first segment, a dot and the second segment, and the compact string
extends it with at most the signature segment.  Sign side: the
algorithm is invoked on exactly the signed token's `getSignString`,
which is the base64url-encoded marshalled header, a dot and the
payload segment; the signature segment lies outside it. -/
theorem sign_input_exact (E : Ext) (s : Bytes) (t t' : Token) (priv : Key)
    (out : Bytes) :
    (ParseString s = .ok t →
       (t.getSignString = (t.values.getD 0 []) ++ dotByte :: (t.values.getD 1 []) ∧
        (t.values.length = 2 → s = t.getSignString) ∧
        (t.values.length = 3 →
           s = t.getSignString ++ dotByte :: (t.values.getD 2 [])))) ∧
    (Token.sign E t priv = (.ok out, t') →
       ∃ a sigOpt,
         (t.getAlgoFn E).1 = some a ∧
         t'.getSignString =
           b64urlEncode (E.jsonEncHeader ((t.getAlgoFn E).2.headerFn E).1) ++
             dotByte :: Token.signV1 E ((t.getAlgoFn E).2.headerFn E).2 ∧
         Algo.sign E a t'.getSignString priv = .ok sigOpt ∧
         (sigOpt = none → out = t'.getSignString ∧ t'.values.length = 2) ∧
         (∀ sb, sigOpt = some sb →
            out = t'.getSignString ++ dotByte :: b64urlEncode sb ∧
            t'.values.length = 3)) := by
  constructor
  · intro h
    cases hsd : splitDot s with
    | none =>
        exfalso
        simp [ParseString, splitN3, hsd] at h
    | some p =>
        obtain ⟨a, rest⟩ := p
        obtain ⟨hs1, _⟩ := splitDot_eq s a rest hsd
        cases hsd2 : splitDot rest with
        | none =>
            have ht : t = (⟨none, none, none, [a, rest], s⟩ : Token) := by
              simp [ParseString, splitN3, hsd, hsd2] at h
              exact h.symm
            subst ht
            have hgss := getSignString_two none none none a rest s hs1
            refine ⟨?_, fun _ => ?_, fun h3 => by simp at h3⟩
            · rw [hgss]; rfl
            · rw [hgss]; exact hs1
        | some p2 =>
            obtain ⟨b, rest2⟩ := p2
            obtain ⟨hs2, _⟩ := splitDot_eq rest b rest2 hsd2
            have ht : t = (⟨none, none, none, [a, b, rest2], s⟩ : Token) := by
              simp [ParseString, splitN3, hsd, hsd2] at h
              exact h.symm
            subst ht
            have hsplit : s = (a ++ dotByte :: b) ++ dotByte :: rest2 := by
              simp [hs1, hs2]
            have hgss := getSignString_three none none none a b rest2 s hsplit
            refine ⟨?_, fun h2 => by simp at h2, fun _ => ?_⟩
            · rw [hgss]; rfl
            · rw [hgss]
              simpa using hsplit
  · intro h
    cases hA : (t.getAlgoFn E).1 with
    | none => simp [Token.sign, hA] at h
    | some algo =>
        refine ⟨algo, ?_⟩
        simp only [Token.sign, hA] at h
        cases hS : Algo.sign E algo
            (b64urlEncode (E.jsonEncHeader ((t.getAlgoFn E).2.headerFn E).1) ++
              dotByte :: Token.signV1 E ((t.getAlgoFn E).2.headerFn E).2) priv with
        | error er => rw [hS] at h; simp at h
        | ok sigOpt =>
            rw [hS] at h
            cases sigOpt with
            | none =>
                simp at h
                obtain ⟨hout, ht'⟩ := h
                have hgss : t'.getSignString =
                    b64urlEncode (E.jsonEncHeader ((t.getAlgoFn E).2.headerFn E).1) ++
                      dotByte :: Token.signV1 E ((t.getAlgoFn E).2.headerFn E).2 := by
                  rw [← ht']
                  exact getSignString_two _ _ _ _ _ _ rfl
                refine ⟨none, rfl, hgss, ?_, ?_, ?_⟩
                · rw [hgss]; exact hS
                · intro _
                  exact ⟨by rw [hgss, hout], by rw [← ht']; rfl⟩
                · intro sb hsb; cases hsb
            | some sb =>
                simp at h
                obtain ⟨hout, ht'⟩ := h
                have hgss : t'.getSignString =
                    b64urlEncode (E.jsonEncHeader ((t.getAlgoFn E).2.headerFn E).1) ++
                      dotByte :: Token.signV1 E ((t.getAlgoFn E).2.headerFn E).2 := by
                  rw [← ht']
                  exact getSignString_three _ _ _ _ _ _ _ (by simp)
                refine ⟨some sb, rfl, hgss, ?_, ?_, ?_⟩
                · rw [hgss]; exact hS
                · intro hc; cases hc
                · intro sb2 hsb2
                  obtain rfl : sb2 = sb := by
                    injection hsb2 with e
                    exact e.symm
                  exact ⟨by rw [hgss, ← hout]; simp, by rw [← ht']; rfl⟩

/-- The parsed form of the compact string "aa.bb.cc". -/
def tokC5 : Token :=
  ⟨none, none, none, [bs "aa", bs "bb", bs "cc"], bs "aa.bb.cc"⟩

/-- C5 witness: on the parsed three-segment string "aa.bb.cc", the
sign string is exactly "aa.bb" and the compact string extends it with
the signature segment only. -/
theorem sign_input_exact_witness :
    tokC5.getSignString = bs "aa" ++ dotByte :: bs "bb" ∧
    bs "aa.bb.cc" = tokC5.getSignString ++ dotByte :: bs "cc" := by
  have h := (sign_input_exact extTriv (bs "aa.bb.cc") tokC5 tokC5 (.otherK 0) []).1
    (by rfl)
  exact ⟨h.1, h.2.2 (by rfl)⟩

/-- Any success of the ECDSA fixed-width normalization has exactly
`2×digitLength` bytes. -/
theorem ecdsaFinalizeSig_ok_length (ln : Nat) (buf out : Bytes)
    (h : ecdsaFinalizeSig ln buf = .ok out) : out.length = ln * 2 := by
  by_cases hL : buf.length = ln * 2
  · simp [ecdsaFinalizeSig, hL] at h
    subst h
    exact hL
  · cases hp : parseEcdsaSignature buf with
    | none => simp [ecdsaFinalizeSig, hL, hp] at h
    | some rs =>
        obtain ⟨r, s⟩ := rs
        by_cases hlt : ln < r.length ∨ ln < s.length
        · simp [ecdsaFinalizeSig, hL, hp, hlt] at h
        · simp [ecdsaFinalizeSig, hL, hp, hlt] at h
          push_neg at hlt
          subst h
          rw [List.length_append, padLeft_length _ _ hlt.1, padLeft_length _ _ hlt.2]
          omega

/-- A successful `ecdsaAlgo.Sign` has exactly `2×digitLength` bytes. -/
theorem ecdsaSign_ok_length (E : Ext) (e : EcdsaAlg) (buf : Bytes) (priv : Key)
    (sb : Bytes) (h : EcdsaAlg.sign E e buf priv = .ok sb) :
    sb.length = e.digitLength * 2 := by
  unfold EcdsaAlg.sign at h
  cases hp : priv.publicOf with
  | none => rw [hp] at h; simp at h
  | some pub =>
      rw [hp] at h
      dsimp only at h
      by_cases hok : ecdsaPubTypeOk e pub = false
      · rw [if_pos hok] at h; simp at h
      · rw [if_neg hok] at h
        by_cases hav : E.hashAvailable e.hash = false
        · rw [if_pos hav] at h; simp at h
        · rw [if_neg hav] at h
          cases hk : keySignPrim E priv e.hash (E.hashSum e.hash buf) with
          | error er => rw [hk] at h; simp at h
          | ok sigBuf =>
              rw [hk] at h
              exact ecdsaFinalizeSig_ok_length _ _ _ h

/-- Every built-in algorithm that returns non-nil signature bytes
returns non-empty ones, given that the crypto provider's primitives
and MACs never produce an empty buffer. -/
theorem algo_sign_some_ne_nil (E : Ext) (a : Algo) (buf : Bytes) (priv : Key)
    (sb : Bytes)
    (hHmac : ∀ h k m, E.hmacSum h k m ≠ [])
    (hRsa : ∀ id h d b, E.rsaSignPrim id h d = .ok b → b ≠ [])
    (hPss : ∀ id h d b, E.rsaPssSignPrim id h d = .ok b → b ≠ [])
    (hEd : ∀ id m b, E.edSignPrim id m = .ok b → b ≠ [])
    (h : Algo.sign E a buf priv = .ok (some sb)) : sb ≠ [] := by
  cases a with
  | hs hh =>
      cases priv <;> simp [Algo.sign] at h
      case hmacK k =>
        by_cases hav : E.hashAvailable hh = false
        · simp [hav] at h
        · simp [hav] at h
          rw [← h]
          exact hHmac hh k buf
  | rs hh =>
      cases priv with
      | rsaPriv id =>
          by_cases hav : E.hashAvailable hh = false
          · simp [Algo.sign, hav] at h
          · simp only [Algo.sign, hav, if_false, Bool.false_eq_true] at h
            cases hr : E.rsaSignPrim id hh (E.hashSum hh buf) with
            | error er => rw [hr] at h; simp [Except.map] at h
            | ok b =>
                rw [hr] at h
                simp [Except.map] at h
                rw [← h]
                exact hRsa id hh (E.hashSum hh buf) b hr
      | ecdsaPriv id =>
          by_cases hav : E.hashAvailable hh = false <;> simp [Algo.sign, hav] at h
      | edPriv id =>
          by_cases hav : E.hashAvailable hh = false <;> simp [Algo.sign, hav] at h
      | hmacK k => simp [Algo.sign] at h
      | rsaPub id => simp [Algo.sign] at h
      | ecdsaPub id => simp [Algo.sign] at h
      | edPub id => simp [Algo.sign] at h
      | otherK id => simp [Algo.sign] at h
  | ps hh =>
      cases priv with
      | rsaPriv id =>
          by_cases hav : E.hashAvailable hh = false
          · simp [Algo.sign, hav] at h
          · simp only [Algo.sign, hav, if_false, Bool.false_eq_true] at h
            cases hr : E.rsaPssSignPrim id hh (E.hashSum hh buf) with
            | error er => rw [hr] at h; simp [Except.map] at h
            | ok b =>
                rw [hr] at h
                simp [Except.map] at h
                rw [← h]
                exact hPss id hh (E.hashSum hh buf) b hr
      | ecdsaPriv id =>
          by_cases hav : E.hashAvailable hh = false <;> simp [Algo.sign, hav] at h
      | edPriv id =>
          by_cases hav : E.hashAvailable hh = false <;> simp [Algo.sign, hav] at h
      | hmacK k => simp [Algo.sign] at h
      | rsaPub id => simp [Algo.sign] at h
      | ecdsaPub id => simp [Algo.sign] at h
      | edPub id => simp [Algo.sign] at h
      | otherK id => simp [Algo.sign] at h
  | es e =>
      have hes : EcdsaAlg.sign E e buf priv = .ok sb := by
        simp only [Algo.sign] at h
        cases hx : EcdsaAlg.sign E e buf priv with
        | error er => rw [hx] at h; simp [Except.map] at h
        | ok b =>
            rw [hx] at h
            simp [Except.map] at h
            rw [h]
      have hlen := ecdsaSign_ok_length E e buf priv sb hes
      intro hnil
      subst hnil
      simp at hlen
      cases e <;> simp [EcdsaAlg.digitLength, EcdsaAlg.hash] at hlen
  | eddsa =>
      cases priv <;> simp [Algo.sign] at h
      case edPriv id =>
        cases hr : E.edSignPrim id buf with
        | error er => rw [hr] at h; simp [Except.map] at h
        | ok b =>
            rw [hr] at h
            simp [Except.map] at h
            rw [← h]
            exact hEd id buf b hr
  | noneAlgo => simp [Algo.sign] at h

end Jwt

namespace Jwt

/-- Inversion of a successful `Token.Sign`: the resolved algorithm, the
two segments, and the two exits of the signature-append step. -/
theorem token_sign_ok_cases (E : Ext) (t t' : Token) (priv : Key) (out : Bytes)
    (h : Token.sign E t priv = (.ok out, t')) :
    ∃ a v0 v1, (t.getAlgoFn E).1 = some a ∧
      v0 = b64urlEncode (E.jsonEncHeader ((t.getAlgoFn E).2.headerFn E).1) ∧
      v1 = Token.signV1 E ((t.getAlgoFn E).2.headerFn E).2 ∧
      ((Algo.sign E a (v0 ++ dotByte :: v1) priv = .ok none ∧
          out = v0 ++ dotByte :: v1 ∧ t'.values = [v0, v1]) ∨
       (∃ sb, Algo.sign E a (v0 ++ dotByte :: v1) priv = .ok (some sb) ∧
          out = v0 ++ dotByte :: (v1 ++ dotByte :: b64urlEncode sb) ∧
          t'.values = [v0, v1, b64urlEncode sb])) := by
  cases hA : (t.getAlgoFn E).1 with
  | none => simp [Token.sign, hA] at h
  | some algo =>
      refine ⟨algo, _, _, rfl, rfl, rfl, ?_⟩
      simp only [Token.sign, hA] at h
      cases hS : Algo.sign E algo
          (b64urlEncode (E.jsonEncHeader ((t.getAlgoFn E).2.headerFn E).1) ++
            dotByte :: Token.signV1 E ((t.getAlgoFn E).2.headerFn E).2) priv with
      | error er => rw [hS] at h; simp at h
      | ok sigOpt =>
          rw [hS] at h
          cases sigOpt with
          | none =>
              simp at h
              obtain ⟨hout, ht'⟩ := h
              exact Or.inl ⟨rfl, hout.symm, by rw [← ht']⟩
          | some sb =>
              simp at h
              obtain ⟨hout, ht'⟩ := h
              exact Or.inr ⟨sb, rfl, hout.symm, by rw [← ht']⟩

/-- C8 (amended): `Token.Sign` appends the third segment exactly when
the algorithm produced non-nil bytes, which for every built-in
algorithm are non-empty (given non-degenerate crypto primitives); the
"none" algorithm yields a two-segment compact string, which moreover
has no trailing dot whenever the payload segment is non-empty (a
reused empty raw-payload segment does leave a trailing dot). -/
theorem sign_appends_iff_nonempty (E : Ext) (t t' : Token) (priv : Key) (out : Bytes)
    (hHmac : ∀ h k m, E.hmacSum h k m ≠ [])
    (hRsa : ∀ id h d b, E.rsaSignPrim id h d = .ok b → b ≠ [])
    (hPss : ∀ id h d b, E.rsaPssSignPrim id h d = .ok b → b ≠ [])
    (hEd : ∀ id m b, E.edSignPrim id m = .ok b → b ≠ [])
    (hSig : Token.sign E t priv = (.ok out, t')) :
    (t'.values.length = 2 ∨ t'.values.length = 3) ∧
    (t'.values.length = 3 →
       ∃ sb, sb ≠ [] ∧ t'.values.getD 2 [] = b64urlEncode sb) ∧
    ((t.getAlgoFn E).1 = some .noneAlgo →
       t'.values.length = 2 ∧
       (t'.values.getD 1 [] ≠ [] → dotByte ∉ t'.values.getD 1 [] →
          out.getLast? ≠ some dotByte)) := by
  obtain ⟨a, v0, v1, hA, hv0, hv1, hcase⟩ := token_sign_ok_cases E t t' priv out hSig
  rcases hcase with ⟨hs, hout, hvals⟩ | ⟨sb, hs, hout, hvals⟩
  · refine ⟨Or.inl (by rw [hvals]; rfl), ?_, ?_⟩
    · intro h3; rw [hvals] at h3; simp at h3
    · intro _
      refine ⟨by rw [hvals]; rfl, ?_⟩
      intro hne hnd
      have hne1 : v1 ≠ [] := by
        intro hv; rw [hvals] at hne; exact hne (by rw [hv]; rfl)
      have hnd1 : dotByte ∉ v1 := by
        intro hv; rw [hvals] at hnd; exact hnd hv
      rw [hout]
      have hassoc : v0 ++ dotByte :: v1 = (v0 ++ [dotByte]) ++ v1 := by simp
      rw [hassoc, List.getLast?_append_of_ne_nil _ hne1]
      intro hcontra
      rw [List.getLast?_eq_getLast_of_ne_nil hne1] at hcontra
      injection hcontra with h2
      exact hnd1 (h2 ▸ List.getLast_mem hne1)
  · refine ⟨Or.inr (by rw [hvals]; rfl), ?_, ?_⟩
    · intro _
      exact ⟨sb, algo_sign_some_ne_nil E a _ priv sb hHmac hRsa hPss hEd hs,
        by rw [hvals]; rfl⟩
    · intro hNone
      rw [hA] at hNone
      injection hNone with he
      subst he
      simp [Algo.sign] at hs

/-- An `Ext` whose primitives return fixed non-empty buffers. -/
def extNE : Ext :=
  { extTriv with
    jsonEncHeader := fun _ => [1]
    jsonEncPayload := fun _ => [2]
    hmacSum := fun _ _ _ => [3]
    rsaSignPrim := fun _ _ _ => .ok [4]
    rsaPssSignPrim := fun _ _ _ => .ok [5]
    ecdsaSignPrim := fun _ _ _ => .ok (List.replicate 64 6)
    edSignPrim := fun _ _ => .ok [7] }

/-- C8 witness: signing a fresh "none" token yields two segments and
no trailing dot; signing a fresh HS256 token yields three segments. -/
theorem sign_appends_iff_nonempty_witness :
    (Token.sign extNE (Token.new .noneAlgo) (.otherK 0)).1
        = .ok (b64urlEncode [1] ++ dotByte :: b64urlEncode [2]) ∧
    (Token.sign extNE (Token.new .noneAlgo) (.otherK 0)).2.values.length = 2 ∧
    (b64urlEncode [1] ++ dotByte :: b64urlEncode [2]).getLast? ≠ some dotByte ∧
    (Token.sign extNE (Token.new (.hs .sha256)) (.hmacK [9])).2.values.length = 3 := by
  have h1 := sign_appends_iff_nonempty extNE (Token.new .noneAlgo)
      ((Token.sign extNE (Token.new .noneAlgo) (.otherK 0)).2) (.otherK 0)
      (b64urlEncode [1] ++ dotByte :: b64urlEncode [2])
      (fun _ _ _ => by show ([3] : Bytes) ≠ []; decide)
      (fun id h d b hb => by
        have hb' : (Except.ok [4] : Except Err Bytes) = .ok b := hb
        injection hb' with e
        subst e
        decide)
      (fun id h d b hb => by
        have hb' : (Except.ok [5] : Except Err Bytes) = .ok b := hb
        injection hb' with e
        subst e
        decide)
      (fun id m b hb => by
        have hb' : (Except.ok [7] : Except Err Bytes) = .ok b := hb
        injection hb' with e
        subst e
        decide)
      rfl
  refine ⟨rfl, h1.2.2 rfl |>.1, ?_, rfl⟩
  exact h1.2.2 rfl |>.2 (by decide) (by decide)

/-- The JSON header `{"alg":"none"}`. -/
def hdrNoneJson : Bytes := bs "\x7b\"alg\":\"none\"\x7d"

/-- A JSON collaborator that decodes and encodes exactly that
header. -/
def extCex : Ext :=
  { extTriv with
    jsonDecHeader := fun b =>
      if b = hdrNoneJson then some [(bs "alg", bs "none")] else none
    jsonEncHeader := fun _ => hdrNoneJson }

/-- The parsed form of `base64url({"alg":"none"}) + "."`: a syntactically
valid two-segment token whose raw payload segment is empty. -/
def tokCex : Token :=
  ⟨none, none, none, [b64urlEncode hdrNoneJson, []],
    b64urlEncode hdrNoneJson ++ [dotByte]⟩

/-- C8 counterexample: signing this parsed token with the "none"
algorithm succeeds and returns a two-segment compact string that DOES
end in a dot (its reused raw payload segment is empty), contradicting
the claim's "no trailing dot". -/
theorem sign_none_trailing_dot_cex :
    ParseString (b64urlEncode hdrNoneJson ++ [dotByte]) = .ok tokCex ∧
    (Token.sign extCex tokCex (.otherK 0)).1
      = .ok (b64urlEncode hdrNoneJson ++ [dotByte]) ∧
    (Token.sign extCex tokCex (.otherK 0)).2.values.length = 2 ∧
    (b64urlEncode hdrNoneJson ++ [dotByte]).getLast? = some dotByte := by
  refine ⟨by decide, by decide, by decide, by simp⟩

end Jwt

namespace Jwt

/-- A cached header is returned as-is. -/
theorem headerFn_cached (E : Ext) (t : Token) (m : Hmap) (h : t.header = some m) :
    t.headerFn E = (some m, t) := by
  simp [Token.headerFn, h]

/-- A cached payload is returned as-is. -/
theorem payloadFn_cached (E : Ext) (t : Token) (m : Pmap) (h : t.payload = some m) :
    t.payloadFn E = (some m, t) := by
  simp [Token.payloadFn, h]

/-- A failed header decode leaves the token untouched. -/
theorem headerFn_none (E : Ext) (t : Token) (h : (t.headerFn E).1 = none) :
    (t.headerFn E).2 = t := by
  cases hp : t.header with
  | some m => rw [headerFn_cached E t m hp] at h; simp at h
  | none =>
      cases hb : b64urlDecode ((t.values[0]?).getD []) with
      | none => simp [Token.headerFn, hp, hb]
      | some str =>
          cases hj : E.jsonDecHeader str with
          | none => simp [Token.headerFn, hp, hb, hj]
          | some m =>
              have hfst : (t.headerFn E).1 = some m := by
                simp [Token.headerFn, hp, hb, hj]
              rw [hfst] at h
              simp at h

/-- A failed payload decode leaves the token untouched. -/
theorem payloadFn_none (E : Ext) (t : Token) (h : (t.payloadFn E).1 = none) :
    (t.payloadFn E).2 = t := by
  cases hp : t.payload with
  | some m => rw [payloadFn_cached E t m hp] at h; simp at h
  | none =>
      cases hb : b64urlDecode ((t.values[1]?).getD []) with
      | none => simp [Token.payloadFn, hp, hb]
      | some str =>
          cases hj : E.jsonDecPayload str with
          | none => simp [Token.payloadFn, hp, hb, hj]
          | some m =>
              have hfst : (t.payloadFn E).1 = some m := by
                simp [Token.payloadFn, hp, hb, hj]
              rw [hfst] at h
              simp at h

/-- A successful header decode is cached in the result state. -/
theorem headerFn_some (E : Ext) (t : Token) (m : Hmap)
    (h : (t.headerFn E).1 = some m) : (t.headerFn E).2.header = some m := by
  cases hp : t.header with
  | some m0 =>
      rw [headerFn_cached E t m0 hp] at h ⊢
      simp at h
      rw [hp, h]
  | none =>
      cases hb : b64urlDecode ((t.values[0]?).getD []) with
      | none =>
          have hfst : (t.headerFn E).1 = none := by
            simp [Token.headerFn, hp, hb]
          rw [hfst] at h; simp at h
      | some str =>
          cases hj : E.jsonDecHeader str with
          | none =>
              have hfst : (t.headerFn E).1 = none := by
                simp [Token.headerFn, hp, hb, hj]
              rw [hfst] at h; simp at h
          | some m1 =>
              have heq : t.headerFn E =
                  (some m1, { t with header := some m1 }) := by
                simp [Token.headerFn, hp, hb, hj]
              rw [heq] at h ⊢
              simp at h ⊢
              exact h

/-- A successful payload decode is cached in the result state. -/
theorem payloadFn_some (E : Ext) (t : Token) (m : Pmap)
    (h : (t.payloadFn E).1 = some m) : (t.payloadFn E).2.payload = some m := by
  cases hp : t.payload with
  | some m0 =>
      rw [payloadFn_cached E t m0 hp] at h ⊢
      simp at h
      rw [hp, h]
  | none =>
      cases hb : b64urlDecode ((t.values[1]?).getD []) with
      | none =>
          have hfst : (t.payloadFn E).1 = none := by
            simp [Token.payloadFn, hp, hb]
          rw [hfst] at h; simp at h
      | some str =>
          cases hj : E.jsonDecPayload str with
          | none =>
              have hfst : (t.payloadFn E).1 = none := by
                simp [Token.payloadFn, hp, hb, hj]
              rw [hfst] at h; simp at h
          | some m1 =>
              have heq : t.payloadFn E =
                  (some m1, { t with payload := some m1 }) := by
                simp [Token.payloadFn, hp, hb, hj]
              rw [heq] at h ⊢
              simp at h ⊢
              exact h

/-- `Header()` only ever writes the header field. -/
theorem headerFn_fields (E : Ext) (t : Token) :
    (t.headerFn E).2.payload = t.payload ∧ (t.headerFn E).2.values = t.values ∧
    (t.headerFn E).2.value = t.value ∧ (t.headerFn E).2.algo = t.algo := by
  cases hp : t.header with
  | some m => simp [Token.headerFn, hp]
  | none =>
      cases hb : b64urlDecode ((t.values[0]?).getD []) with
      | none => simp [Token.headerFn, hp, hb]
      | some str =>
          cases hj : E.jsonDecHeader str with
          | none => simp [Token.headerFn, hp, hb, hj]
          | some m => simp [Token.headerFn, hp, hb, hj]

/-- `Payload()` only ever writes the payload field. -/
theorem payloadFn_fields (E : Ext) (t : Token) :
    (t.payloadFn E).2.header = t.header ∧ (t.payloadFn E).2.values = t.values ∧
    (t.payloadFn E).2.value = t.value ∧ (t.payloadFn E).2.algo = t.algo := by
  cases hp : t.payload with
  | some m => simp [Token.payloadFn, hp]
  | none =>
      cases hb : b64urlDecode ((t.values[1]?).getD []) with
      | none => simp [Token.payloadFn, hp, hb]
      | some str =>
          cases hj : E.jsonDecPayload str with
          | none => simp [Token.payloadFn, hp, hb, hj]
          | some m => simp [Token.payloadFn, hp, hb, hj]

/-- `Payload()` reads only the payload and values fields. -/
theorem payloadFn_fst_congr (E : Ext) (t1 t : Token)
    (hp : t1.payload = t.payload) (hv : t1.values = t.values) :
    (t1.payloadFn E).1 = (t.payloadFn E).1 := by
  unfold Token.payloadFn
  rw [hp, hv]
  cases t.payload with
  | some m => rfl
  | none =>
      cases b64urlDecode (t.values.getD 1 []) with
      | none => rfl
      | some str =>
          dsimp only
          cases E.jsonDecPayload str with
          | none => rfl
          | some m => rfl

/-- With a cached header, algorithm resolution leaves the token
untouched. -/
theorem getAlgoFn_state (E : Ext) (t : Token) (m : Hmap) (h : t.header = some m) :
    (t.getAlgoFn E).2 = t := by
  unfold Token.getAlgoFn
  cases ha : t.algo with
  | some a => simp
  | none => simp [headerFn_cached E t m h]

end Jwt

namespace Jwt

/-- The algorithm allow-list check never mutates a token whose header
is decoded. -/
theorem runVerifyAlgo_state (E : Ext) (l : List Algo) (t : Token) (m : Hmap)
    (hm : t.header = some m) : (runVerifyAlgo E l t).2 = t := by
  have hst := getAlgoFn_state E t m hm
  unfold runVerifyAlgo
  cases hA : (t.getAlgoFn E).1 with
  | none => simp [hA, hst]
  | some ta =>
      by_cases h : l.any (fun a => decide (a.string = ta.string)) <;> simp [hA, h, hst]

/-- The signature check never mutates a token whose header is
decoded. -/
theorem runVerifySignature_state (E : Ext) (flag : Bool) (pub : Key) (t : Token)
    (m : Hmap) (hm : t.header = some m) : (runVerifySignature E flag pub t).2 = t := by
  have hst := getAlgoFn_state E t m hm
  unfold runVerifySignature
  cases hr : t.getRawSignature with
  | error e => simp
  | ok sign =>
      cases hA : (t.getAlgoFn E).1 with
      | none => simp [hA, hst]
      | some a => simp [hA, hst]

/-- The expiry check never mutates a token whose payload is decoded. -/
theorem runVerifyExpiresAt_state (E : Ext) (now : GoTime) (req : Bool) (t : Token)
    (p : Pmap) (hp : t.payload = some p) : (runVerifyExpiresAt E now req t).2 = t := by
  have hc := payloadFn_cached E t p hp
  unfold runVerifyExpiresAt
  simp only [hc]
  by_cases hhas : Payload.has (some p) (bs "exp") = false
  · simp [hhas]
  · by_cases hz : (Payload.getNumericDate E (some p) (bs "exp")).isZero = true
    · simp [hhas, hz]
    · by_cases hbf : (Payload.getNumericDate E (some p) (bs "exp")).before now = true <;>
        simp [hhas, hz, hbf]

/-- The not-before check never mutates a token whose payload is
decoded. -/
theorem runVerifyNotBefore_state (E : Ext) (now : GoTime) (req : Bool) (t : Token)
    (p : Pmap) (hp : t.payload = some p) : (runVerifyNotBefore E now req t).2 = t := by
  have hc := payloadFn_cached E t p hp
  unfold runVerifyNotBefore
  simp only [hc]
  by_cases hhas : Payload.has (some p) (bs "nbf") = false
  · simp [hhas]
  · by_cases hz : (Payload.getNumericDate E (some p) (bs "nbf")).isZero = true
    · simp [hhas, hz]
    · by_cases hbf : now.before (Payload.getNumericDate E (some p) (bs "nbf")) = true <;>
        simp [hhas, hz, hbf]

mutual

/-- No verification option mutates a token whose header and payload
are decoded. -/
theorem runOpt_state (E : Ext) (flag : Bool) (o : VOpt) (t : Token)
    (m : Hmap) (p : Pmap) (hm : t.header = some m) (hp : t.payload = some p) :
    (runOpt E flag o t).2 = t := by
  cases o with
  | algoList l =>
      simp only [runOpt]
      exact runVerifyAlgo_state E l t m hm
  | signatureOf pub =>
      simp only [runOpt]
      exact runVerifySignature_state E flag pub t m hm
  | expiresAt now req =>
      simp only [runOpt]
      exact runVerifyExpiresAt_state E now req t p hp
  | notBefore now req =>
      simp only [runOpt]
      exact runVerifyNotBefore_state E now req t p hp
  | multiple l =>
      simp only [runOpt]
      exact runOpts_state E flag l t m p hm hp

/-- A list of verification options never mutates such a token. -/
theorem runOpts_state (E : Ext) (flag : Bool) (l : List VOpt) (t : Token)
    (m : Hmap) (p : Pmap) (hm : t.header = some m) (hp : t.payload = some p) :
    (runOpts E flag l t).2 = t := by
  cases l with
  | nil => simp [runOpts]
  | cons o rest =>
      have h1 := runOpt_state E flag o t m p hm hp
      simp only [runOpts]
      cases hr : runOpt E flag o t with
      | mk fst snd =>
          have hsnd : snd = t := by rw [hr] at h1; exact h1
          cases fst with
          | some e => simpa using hsnd
          | none =>
              have hrec := runOpts_state E flag rest t m p hm hp
              rw [hsnd]
              simpa using hrec

end

end Jwt

namespace Jwt

/-- C9: `Token.Verify` is idempotent and observably pure: a second run
with the same options returns the same result and leaves the same
state, and a Verify call never changes what the accessors observe —
the decoded header, the decoded payload claims, the stored segments
and the compact string are identical before and after, whether the
call succeeds or fails. -/
theorem verify_idempotent_no_mutation (E : Ext) (flag : Bool) (t : Token)
    (opts : List VOpt) :
    Token.verify E flag (Token.verify E flag t opts).2 opts
      = Token.verify E flag t opts ∧
    ((Token.verify E flag t opts).2.headerFn E).1 = (t.headerFn E).1 ∧
    ((Token.verify E flag t opts).2.payloadFn E).1 = (t.payloadFn E).1 ∧
    (Token.verify E flag t opts).2.values = t.values ∧
    (Token.verify E flag t opts).2.value = t.value := by
  cases hh : (t.headerFn E).1 with
  | none =>
      have hsnd : (t.headerFn E).2 = t := headerFn_none E t hh
      have hver : Token.verify E flag t opts = (some .noHeader, t) := by
        simp [Token.verify, hh, hsnd]
      rw [hver]
      exact ⟨hver, hh, rfl, rfl, rfl⟩
  | some m =>
      have hcache2 : (t.headerFn E).2.header = some m := headerFn_some E t m hh
      have hfieldsH := headerFn_fields E t
      cases hp : ((t.headerFn E).2.payloadFn E).1 with
      | none =>
          have hp2 : ((t.headerFn E).2.payloadFn E).2 = (t.headerFn E).2 :=
            payloadFn_none E (t.headerFn E).2 hp
          have hver : Token.verify E flag t opts =
              (some .noPayload, (t.headerFn E).2) := by
            simp [Token.verify, hh, hp, hp2]
          have hpt : (t.payloadFn E).1 = none := by
            rw [← payloadFn_fst_congr E (t.headerFn E).2 t hfieldsH.1 hfieldsH.2.1]
            exact hp
          rw [hver]
          refine ⟨?_, ?_, ?_, hfieldsH.2.1, hfieldsH.2.2.1⟩
          · have hver2 : Token.verify E flag (t.headerFn E).2 opts =
                (some .noPayload, (t.headerFn E).2) := by
              simp [Token.verify, headerFn_cached E (t.headerFn E).2 m hcache2, hp, hp2]
            exact hver2
          · rw [headerFn_cached E (t.headerFn E).2 m hcache2]
          · exact hp.trans hpt.symm
      | some pm =>
          have hp2 : ((t.headerFn E).2.payloadFn E).2.payload = some pm :=
            payloadFn_some E (t.headerFn E).2 pm hp
          have hfieldsP := payloadFn_fields E (t.headerFn E).2
          have hh2 : ((t.headerFn E).2.payloadFn E).2.header = some m := by
            rw [hfieldsP.1]; exact hcache2
          have hrun := runOpts_state E flag opts ((t.headerFn E).2.payloadFn E).2
            m pm hh2 hp2
          have hver : Token.verify E flag t opts =
              runOpts E flag opts ((t.headerFn E).2.payloadFn E).2 := by
            simp [Token.verify, hh, hp]
          have hpt : (t.payloadFn E).1 = some pm := by
            rw [← payloadFn_fst_congr E (t.headerFn E).2 t hfieldsH.1 hfieldsH.2.1]
            exact hp
          rw [hver]
          refine ⟨?_, ?_, ?_, ?_, ?_⟩
          · rw [hrun]
            simp [Token.verify,
              headerFn_cached E ((t.headerFn E).2.payloadFn E).2 m hh2,
              payloadFn_cached E ((t.headerFn E).2.payloadFn E).2 pm hp2]
          · rw [hrun, headerFn_cached E ((t.headerFn E).2.payloadFn E).2 m hh2]
          · rw [hrun, payloadFn_cached E ((t.headerFn E).2.payloadFn E).2 pm hp2, hpt]
          · rw [hrun, hfieldsP.2.1, hfieldsH.2.1]
          · rw [hrun, hfieldsP.2.2.1, hfieldsH.2.2.1]

end Jwt
